import Mathlib

/-!
Verification of the UP (Unified Properties) parser.

The parser is a line-oriented recursive-descent algorithm turning input text
into a tree of nodes (scalars, blocks, lists, multiline text).  This file
gives a shallow embedding of the parser, translated from `src/lib.rs`:

* strings are modeled as Lean `String` / `List Char`, and the byte-level
  operations of the source (`str::len`, byte-index slicing in `dedent`) are
  modeled through the UTF-8 byte size of each character (`rustUtf8Len`), so
  that slicing off a character boundary is represented faithfully: it is the
  `POut.panic` outcome, the Rust byte-boundary panic;
* the Rust `HashMap` used for block values is modeled as an association list
  whose insert operation overwrites an existing binding (`insertKV`);
* the shared peekable line cursor is modeled as the remaining `List String`
  of lines, threaded through every parsing function;
* Rust's structural recursion through the cursor is modeled with an explicit
  fuel parameter; `3 * number-of-lines + 1` fuel is proved sufficient
  (`POut.nofuel` is unreachable with it), so the top entry point `parse`
  runs with that fuel.
-/

namespace UP

/-- Model of Rust `char::is_whitespace` (the Unicode `White_Space` property). -/
def rustIsWhitespace (c : Char) : Bool :=
  c.val == 0x09 || c.val == 0x0A || c.val == 0x0B || c.val == 0x0C || c.val == 0x0D ||
  c.val == 0x20 || c.val == 0x85 || c.val == 0xA0 || c.val == 0x1680 ||
  (0x2000 ≤ c.val && c.val ≤ 0x200A) ||
  c.val == 0x2028 || c.val == 0x2029 || c.val == 0x202F || c.val == 0x205F || c.val == 0x3000

/-- Model of Rust `str::trim`: drop whitespace from both ends. -/
def rustTrim (s : String) : String :=
  ⟨((s.toList.dropWhile rustIsWhitespace).reverse.dropWhile rustIsWhitespace).reverse⟩

/-- Model of Rust `str::starts_with`. -/
def strStarts (s p : String) : Bool :=
  p.toList.isPrefixOf s.toList

/-- Model of Rust `str::ends_with`. -/
def strEnds (s p : String) : Bool :=
  p.toList.isSuffixOf s.toList

/-- Split a character list at every occurrence of `sep` (Rust `str::split`). -/
def splitChar (sep : Char) : List Char → List (List Char)
  | [] => [[]]
  | c :: cs =>
    if c = sep then [] :: splitChar sep cs
    else
      match splitChar sep cs with
      | [] => [[c]]
      | l :: ls => (c :: l) :: ls

/-- Drop one trailing carriage return, used for `\r\n` line endings. -/
def stripCr (l : List Char) : List Char :=
  if l.getLast? = some '\r' then l.dropLast else l

/-- Model of Rust `str::lines`: split at `\n`, dropping one final empty piece
(the final line ending is optional) and stripping the `\r` of `\r\n` endings.
A `\r` not followed by `\n` is kept, as in Rust. -/
def rustLines (s : String) : List String :=
  let pieces := splitChar '\n' s.toList
  let init := pieces.dropLast.map (fun l => ⟨stripCr l⟩)
  match pieces.getLast? with
  | none => init
  | some [] => init
  | some l => init ++ [⟨l⟩]

/-- Model of Rust `"...".parse::<usize>()`: optional leading `+`, ASCII digits,
value below `2 ^ 64`. -/
def parse_usize (s : String) : Option Nat :=
  let t : List Char :=
    match s.toList with
    | '+' :: rest => rest
    | l => l
  if t ≠ [] ∧ t.all Char.isDigit then
    let n := t.foldl (fun acc c => acc * 10 + (c.toNat - 48)) 0
    if n < 2 ^ 64 then some n else none
  else none

/-- Model of Rust `char::len_utf8`: the number of bytes of the UTF-8
encoding of a character. -/
def rustUtf8Len (c : Char) : Nat :=
  if c.toNat < 0x80 then 1
  else if c.toNat < 0x800 then 2
  else if c.toNat < 0x10000 then 3
  else 4

/-- Model of Rust `str::len`: the length of a string in UTF-8 bytes. -/
def strByteLen (s : String) : Nat :=
  (s.toList.map rustUtf8Len).sum

/-- Model of the byte slice `&s[n..]` on the character list of `s`: `some`
of the remaining characters when byte index `n` falls on a character
boundary, `none` (a Rust panic) when it falls inside a character's UTF-8
encoding or past the end. -/
def dropBytes : List Char → Nat → Option (List Char)
  | l, 0 => some l
  | [], _ + 1 => none
  | c :: cs, n + 1 =>
    if rustUtf8Len c ≤ n + 1 then dropBytes cs (n + 1 - rustUtf8Len c) else none

/-- Rust enum `Value`: a parsed UP value.  `block` stands for the Rust
`HashMap<String, Value>`; it is modeled as an association list with unique
keys maintained by `insertKV`.  `table` is declared in the source data model
but never constructed by any parsing path. -/
inductive Value : Type where
  | string : String → Value
  | block : List (String × Value) → Value
  | list : List Value → Value
  | table : List Value → List (List Value) → Value

/-- Rust struct `Node`: one key line's result.  The field `annot` models the
source field `type_annotation`. -/
structure Node where
  key : String
  annot : Option String
  value : Value

/-- Rust struct `Document`: the ordered top-level nodes. -/
structure Document where
  nodes : List Node

/-- Rust enum `ParseError`. -/
inductive ParseError : Type where
  | InvalidSyntax : String → ParseError
  | UnexpectedEof : ParseError
  | InvalidList : String → ParseError
deriving DecidableEq

/-- Model of the `Display` implementation for `ParseError`. -/
def ParseError.display : ParseError → String
  | ParseError.InvalidSyntax m => "Invalid syntax: " ++ m
  | ParseError.UnexpectedEof => "Unexpected end of input"
  | ParseError.InvalidList m => "Invalid list: " ++ m

/-- The outcome of running a piece of Rust code in the model: `ret` is a
normal return, `panic` is abnormal termination (the byte-boundary panic of
`dedent`'s slicing), and `nofuel` is the fuel artifact of the embedding,
proved unreachable when the fuel is at least linear in the line count. -/
inductive POut (α : Type) : Type where
  | ret : α → POut α
  | panic : POut α
  | nofuel : POut α

/-- Model of `HashMap::insert` on the association-list representation:
overwrite the binding of `k` if present (keeping its position), else append. -/
def insertKV : List (String × Value) → String → Value → List (String × Value)
  | [], k, v => [(k, v)]
  | (k', v') :: rest, k, v =>
    if k' = k then (k, v) :: rest else (k', v') :: insertKV rest k v

/-- `Parser::split_key_value`: split a line at the first whitespace character
into the key part and the trimmed remainder.  The source finds the first
whitespace index and slices there; taking the maximal whitespace-free
prefix / the remaining suffix is the same split (when no whitespace exists,
the suffix is empty and both sides agree with the source's `(line, "")`). -/
def split_key_value (line : String) : String × String :=
  (rustTrim ⟨line.toList.takeWhile (fun c => !rustIsWhitespace c)⟩,
   rustTrim ⟨line.toList.dropWhile (fun c => !rustIsWhitespace c)⟩)

/-- `Parser::parse_key_and_type`: split the key part at the first `!`; the
text after it (possibly empty) is the type annotation, recorded verbatim.
The source finds the first `!` index and slices around it; splitting at the
maximal `!`-free prefix is the same split. -/
def parse_key_and_type (key_part : String) : String × Option String :=
  if '!' ∈ key_part.toList then
    (⟨key_part.toList.takeWhile (fun c => !(c = '!'))⟩,
     some ⟨(key_part.toList.dropWhile (fun c => !(c = '!'))).drop 1⟩)
  else (key_part, none)

/-- Strip one leading `[` if present (Rust `strip_prefix('[')` with
`unwrap_or`). -/
def stripBracketL (s : String) : String :=
  match s.toList with
  | '[' :: rest => ⟨rest⟩
  | _ => s

/-- Strip one trailing `]` if present (Rust `strip_suffix(']')` with
`unwrap_or`). -/
def stripBracketR (s : String) : String :=
  match s.toList.reverse with
  | ']' :: rest => ⟨rest.reverse⟩
  | _ => s

/-- `Parser::parse_inline_list`: trim, strip one `[` and one `]`, and either
return the empty list (blank inside) or the comma-separated segments, each
trimmed and wrapped as a `String` value. -/
def parse_inline_list (s : String) : Except ParseError (List Value) :=
  let s1 := rustTrim s
  let s2 := stripBracketL s1
  let s3 := stripBracketR s2
  if rustTrim s3 = "" then Except.ok []
  else Except.ok ((splitChar ',' s3.toList).map (fun seg => Value.string (rustTrim ⟨seg⟩)))

/-- The per-line closure inside `Parser::dedent`: the source compares
`line.len() >= amount` in bytes and slices `&line[amount..]` at the byte
index, so a line whose byte length is at least `amount` loses its first
`amount` bytes (`none` models the panic when `amount` is not a character
boundary), and a line with fewer bytes is returned unchanged. -/
def dedentLineB (amount : Nat) (line : String) : Option String :=
  if amount ≤ strByteLen line then
    match dropBytes line.toList amount with
    | some l => some ⟨l⟩
    | none => none
  else some line

/-- Apply the dedent closure to every line; a panic on any line is the
panic of the whole map-collect. -/
def dedentAll (amount : Nat) : List String → Option (List String)
  | [] => some []
  | l :: ls =>
    match dedentLineB amount l, dedentAll amount ls with
    | some l', some ls' => some (l' :: ls')
    | _, _ => none

/-- `Parser::dedent`: dedent every line of the text by `amount` bytes and
re-join with newlines; `none` is the byte-boundary panic. -/
def dedentB (text : String) (amount : Nat) : Option String :=
  match dedentAll amount (rustLines text) with
  | some ls => some (String.intercalate "\n" ls)
  | none => none

/-- The line-consuming loop of `Parser::parse_multiline`: collect raw lines
(content) until a line trimming to three backticks, returning the content
and the remaining lines after the terminator. -/
def collectMultiline : List String → List String × List String
  | [] => ([], [])
  | line :: rest =>
    if rustTrim line = "```" then ([], rest)
    else
      let p := collectMultiline rest
      (line :: p.1, p.2)

/-- `Parser::parse_multiline`: join the collected content with newlines and
dedent it when the type annotation parses as a `usize`; a dedent panic is
the panic of the whole parse. -/
def parse_multiline (lines : List String) (annot : Option String) :
    POut (Except ParseError Value × List String) :=
  let p := collectMultiline lines
  let text := String.intercalate "\n" p.1
  match annot with
  | some ts =>
    match parse_usize ts with
    | some n =>
      match dedentB text n with
      | some text' => POut.ret (Except.ok (Value.string text'), p.2)
      | none => POut.panic
    | none => POut.ret (Except.ok (Value.string text), p.2)
  | none => POut.ret (Except.ok (Value.string text), p.2)

mutual

/-- `Parser::parse_line`: split key/value, split key/annotation, dispatch the
value part, and build the node.  `fuel` bounds the recursion; it is decreased
on entry of every recursive parsing function and is proved sufficient at
`3 * lines.length + 3`. -/
def parse_lineF : Nat → List String → String → POut (Except ParseError Node × List String)
  | 0, _, _ => POut.nofuel
  | fuel + 1, lines, line =>
    let kv := split_key_value line
    let kt := parse_key_and_type kv.1
    match parse_valueF fuel lines kv.2 kt.2 with
    | POut.nofuel => POut.nofuel
    | POut.panic => POut.panic
    | POut.ret (Except.error e, rest) => POut.ret (Except.error e, rest)
    | POut.ret (Except.ok v, rest) => POut.ret (Except.ok ⟨kt.1, kt.2, v⟩, rest)

/-- `Parser::parse_value`: dispatch on the value part, in the source's order:
exactly `{` opens a block, exactly `[` opens a multiline list, a leading
triple backtick opens a multiline text block, `[...]` is an inline list, and
anything else is a scalar string. -/
def parse_valueF : Nat → List String → String → Option String →
    POut (Except ParseError Value × List String)
  | 0, _, _, _ => POut.nofuel
  | fuel + 1, lines, val_part, annot =>
    if val_part = "\x7b" then parse_blockF fuel lines []
    else if val_part = "[" then parse_listF fuel lines []
    else if strStarts val_part "```" then parse_multiline lines annot
    else if strStarts val_part "[" && strEnds val_part "]" then
      match parse_inline_list val_part with
      | Except.ok items => POut.ret (Except.ok (Value.list items), lines)
      | Except.error e => POut.ret (Except.error e, lines)
    else POut.ret (Except.ok (Value.string val_part), lines)

/-- `Parser::parse_block`: consume lines until one trims to `}`, skipping
blanks and comments, recursively parsing every other line as a key line and
inserting its key/value pair into the mapping (overwriting duplicates).
Exhausting the lines ends the block silently. -/
def parse_blockF : Nat → List String → List (String × Value) →
    POut (Except ParseError Value × List String)
  | _, [], block => POut.ret (Except.ok (Value.block block), [])
  | 0, _ :: _, _ => POut.nofuel
  | fuel + 1, line :: rest, block =>
    let trimmed := rustTrim line
    if trimmed = "\x7d" then POut.ret (Except.ok (Value.block block), rest)
    else if trimmed = "" || strStarts trimmed "#" then parse_blockF fuel rest block
    else
      match parse_lineF fuel rest trimmed with
      | POut.nofuel => POut.nofuel
      | POut.panic => POut.panic
      | POut.ret (Except.error e, rest') => POut.ret (Except.error e, rest')
      | POut.ret (Except.ok node, rest') =>
        parse_blockF fuel rest' (insertKV block node.key node.value)

/-- `Parser::parse_list`: consume lines until one trims to `]`, skipping
blanks and comments; an inline `[...]` line becomes a nested list element, a
line starting with `{` opens a nested block, anything else is a string
element.  Exhausting the lines ends the list silently. -/
def parse_listF : Nat → List String → List Value →
    POut (Except ParseError Value × List String)
  | _, [], acc => POut.ret (Except.ok (Value.list acc), [])
  | 0, _ :: _, _ => POut.nofuel
  | fuel + 1, line :: rest, acc =>
    let trimmed := rustTrim line
    if trimmed = "]" then POut.ret (Except.ok (Value.list acc), rest)
    else if trimmed = "" || strStarts trimmed "#" then parse_listF fuel rest acc
    else if strStarts trimmed "[" && strEnds trimmed "]" then
      match parse_inline_list trimmed with
      | Except.ok items => parse_listF fuel rest (acc ++ [Value.list items])
      | Except.error e => POut.ret (Except.error e, rest)
    else if strStarts trimmed "\x7b" then
      match parse_blockF fuel rest [] with
      | POut.nofuel => POut.nofuel
      | POut.panic => POut.panic
      | POut.ret (Except.error e, rest') => POut.ret (Except.error e, rest')
      | POut.ret (Except.ok v, rest') => parse_listF fuel rest' (acc ++ [v])
    else parse_listF fuel rest (acc ++ [Value.string trimmed])

end

/-- `Parser::parse_document`: iterate over all lines, skipping blanks and
comments, parsing every other line as a key line with the raw (untrimmed)
line text; an error is wrapped with the 1-based line number (`idx` carries
the 0-based index of the current line). -/
def parse_documentF : Nat → Nat → List String → List Node →
    POut (Except ParseError Document)
  | _, _, [], nodes => POut.ret (Except.ok ⟨nodes⟩)
  | 0, _, _ :: _, _ => POut.nofuel
  | fuel + 1, idx, line :: rest, nodes =>
    let trimmed := rustTrim line
    if trimmed = "" || strStarts trimmed "#" then parse_documentF fuel (idx + 1) rest nodes
    else
      match parse_lineF fuel rest line with
      | POut.nofuel => POut.nofuel
      | POut.panic => POut.panic
      | POut.ret (Except.error e, _) =>
        POut.ret (Except.error (ParseError.InvalidSyntax
          ("line " ++ toString (idx + 1) ++ ": " ++ ParseError.display e)))
      | POut.ret (Except.ok node, rest') =>
        parse_documentF fuel (idx + 1 + (rest.length - rest'.length)) rest' (nodes ++ [node])

/-- The public entry point `parse`: run the document parser over the input's
lines with the fuel proved sufficient below. -/
def parse (input : String) : POut (Except ParseError Document) :=
  parse_documentF (3 * (rustLines input).length + 1) 0 (rustLines input) []

/-- A string free of (Rust) whitespace characters. -/
def keyOkStr (s : String) : Prop :=
  ∀ c ∈ s.toList, rustIsWhitespace c = false

mutual

/-- All keys stored anywhere inside a value are whitespace-free. -/
def valueKeysOk : Value → Prop
  | Value.string _ => True
  | Value.table _ _ => True
  | Value.block m => blockKeysOk m
  | Value.list l => listKeysOk l

/-- All keys of a block mapping (and of its nested values) are
whitespace-free. -/
def blockKeysOk : List (String × Value) → Prop
  | [] => True
  | (k, v) :: rest => keyOkStr k ∧ valueKeysOk v ∧ blockKeysOk rest

/-- All keys inside the elements of a list value are whitespace-free. -/
def listKeysOk : List Value → Prop
  | [] => True
  | v :: rest => valueKeysOk v ∧ listKeysOk rest

end

/-- The node a scalar key line produces: key and annotation from the key
part, the trimmed remainder as a `String` value. -/
def scalarNode (line : String) : Node :=
  let kv := split_key_value line
  let kt := parse_key_and_type kv.1
  ⟨kt.1, kt.2, Value.string kv.2⟩

/-- The value part dispatches to the scalar branch: it is not `{`, not `[`,
does not start with three backticks, and is not a bracketed inline list. -/
def isScalarValB (vp : String) : Bool :=
  !(vp == "\x7b") && !(vp == "[") && !(strStarts vp "```") &&
  !(strStarts vp "[" && strEnds vp "]")

/-- A non-blank, non-comment key line whose value part is a scalar and whose
key contains no whitespace. -/
def scalarLineB (line : String) : Bool :=
  !(rustTrim line == "") && !(strStarts (rustTrim line) "#") &&
  isScalarValB (split_key_value line).2 &&
  (parse_key_and_type (split_key_value line).1).1.toList.all (fun c => !rustIsWhitespace c)

/-- Every node key of a document is non-empty (the part of claim C1 the code
does not satisfy). -/
def docKeysNonempty (d : Document) : Prop :=
  ∀ n ∈ d.nodes, n.key ≠ ""

theorem takeWhile_all_append {p : Char → Bool} :
    ∀ (l : List Char) (x : Char) (r : List Char),
      (∀ c ∈ l, p c = true) → p x = false → (l ++ x :: r).takeWhile p = l := by
  intro l
  induction l with
  | nil =>
    intro x r _ hx
    simp [List.takeWhile, hx]
  | cons c cs ih =>
    intro x r hall hx
    have hc : p c = true := hall c (by simp)
    simp only [List.cons_append, List.takeWhile, hc]
    show c :: List.takeWhile p (cs ++ x :: r) = c :: cs
    rw [ih x r (fun d hd => hall d (by simp [hd])) hx]

theorem dropWhile_all_append {p : Char → Bool} :
    ∀ (l : List Char) (x : Char) (r : List Char),
      (∀ c ∈ l, p c = true) → p x = false → (l ++ x :: r).dropWhile p = x :: r := by
  intro l
  induction l with
  | nil =>
    intro x r _ hx
    simp [List.dropWhile, hx]
  | cons c cs ih =>
    intro x r hall hx
    have hc : p c = true := hall c (by simp)
    simp only [List.cons_append, List.dropWhile, hc]
    exact ih x r (fun d hd => hall d (by simp [hd])) hx

/-- Characters of a trimmed string occur in the original string. -/
theorem mem_of_mem_rustTrim {c : Char} {s : String} (h : c ∈ (rustTrim s).toList) :
    c ∈ s.toList := by
  simp only [rustTrim, String.toList] at h
  rw [List.mem_reverse] at h
  have h1 := (List.dropWhile_sublist (l := (s.data.dropWhile rustIsWhitespace).reverse)
    rustIsWhitespace).subset h
  rw [List.mem_reverse] at h1
  exact (List.dropWhile_sublist (l := s.data) rustIsWhitespace).subset h1

/-- The multiline collector only moves forward in the line cursor. -/
theorem collectMultiline_suffix : ∀ lines : List String, (collectMultiline lines).2 <:+ lines := by
  intro lines
  induction lines with
  | nil => simp [collectMultiline]
  | cons line rest ih =>
    by_cases h : rustTrim line = "```"
    · simp [collectMultiline, h, List.suffix_cons]
    · simpa [collectMultiline, h] using ih.trans (List.suffix_cons line rest)

/-- The remaining cursor of a returning multiline parse is what the
collector left behind the terminator. -/
theorem parse_multiline_rest {lines : List String} {annot : Option String}
    {r : Except ParseError Value} {rest : List String}
    (h : parse_multiline lines annot = POut.ret (r, rest)) :
    rest = (collectMultiline lines).2 := by
  simp only [parse_multiline] at h
  split at h
  · split at h
    · split at h
      · cases h
        rfl
      · exact POut.noConfusion h
    · cases h
      rfl
  · cases h
    rfl

/-- A returning multiline parse always returns a string value. -/
theorem parse_multiline_string {lines : List String} {annot : Option String}
    {res : Except ParseError Value} {rest : List String}
    (h : parse_multiline lines annot = POut.ret (res, rest)) :
    ∃ s, res = Except.ok (Value.string s) := by
  simp only [parse_multiline] at h
  split at h
  · split at h
    · split at h
      · cases h
        exact ⟨_, rfl⟩
      · exact POut.noConfusion h
    · cases h
      exact ⟨_, rfl⟩
  · cases h
    exact ⟨_, rfl⟩

/-- The multiline parser either returns a string value or panics in
dedent; it consumes no fuel. -/
theorem parse_multiline_total (lines : List String) (annot : Option String) :
    (∃ v rest, parse_multiline lines annot = POut.ret (Except.ok v, rest)) ∨
    parse_multiline lines annot = POut.panic := by
  simp only [parse_multiline]
  split
  · split
    · split
      · exact Or.inl ⟨_, _, rfl⟩
      · exact Or.inr rfl
    · exact Or.inl ⟨_, _, rfl⟩
  · exact Or.inl ⟨_, _, rfl⟩

/-- Every parsing function returns a suffix of its input cursor: iteration is
strictly forward. -/
theorem parse_suffix (fuel : Nat) :
    (∀ lines line r rest, parse_lineF fuel lines line = POut.ret (r, rest) → rest <:+ lines) ∧
    (∀ lines vp ta r rest, parse_valueF fuel lines vp ta = POut.ret (r, rest) → rest <:+ lines) ∧
    (∀ lines block r rest, parse_blockF fuel lines block = POut.ret (r, rest) → rest <:+ lines) ∧
    (∀ lines acc r rest, parse_listF fuel lines acc = POut.ret (r, rest) → rest <:+ lines) := by
  induction fuel with
  | zero =>
    refine ⟨?_, ?_, ?_, ?_⟩
    · intro lines line r rest h
      exact POut.noConfusion h
    · intro lines vp ta r rest h
      exact POut.noConfusion h
    · intro lines block r rest h
      cases lines with
      | nil =>
        simp only [parse_blockF] at h
        cases h
        exact List.suffix_refl []
      | cons l ls => exact POut.noConfusion h
    · intro lines acc r rest h
      cases lines with
      | nil =>
        simp only [parse_listF] at h
        cases h
        exact List.suffix_refl []
      | cons l ls => exact POut.noConfusion h
  | succ f ih =>
    obtain ⟨ihl, ihv, ihb, ihs⟩ := ih
    have hline : ∀ lines line r rest, parse_lineF (f + 1) lines line = POut.ret (r, rest) →
        rest <:+ lines := by
      intro lines line r rest h
      simp only [parse_lineF] at h
      split at h
      · exact POut.noConfusion h
      · exact POut.noConfusion h
      · next e rest' heq =>
        cases h
        exact ihv _ _ _ _ _ heq
      · next v rest' heq =>
        cases h
        exact ihv _ _ _ _ _ heq
    refine ⟨hline, ?_, ?_, ?_⟩
    · intro lines vp ta r rest h
      simp only [parse_valueF] at h
      split at h
      · exact ihb _ _ _ _ h
      · split at h
        · exact ihs _ _ _ _ h
        · split at h
          · rw [parse_multiline_rest h]
            exact collectMultiline_suffix lines
          · split at h
            · split at h
              · cases h
                exact List.suffix_refl lines
              · cases h
                exact List.suffix_refl lines
            · cases h
              exact List.suffix_refl lines
    · intro lines block r rest h
      cases lines with
      | nil =>
        simp only [parse_blockF] at h
        cases h
        exact List.suffix_refl []
      | cons line rest0 =>
        simp only [parse_blockF] at h
        split at h
        · cases h
          exact List.suffix_cons _ _
        · split at h
          · exact (ihb _ _ _ _ h).trans (List.suffix_cons _ _)
          · split at h
            · exact POut.noConfusion h
            · exact POut.noConfusion h
            · next e rest' heq =>
              cases h
              exact ((ihl _ _ _ _ heq).trans (List.suffix_cons _ _))
            · next node rest' heq =>
              exact ((ihb _ _ _ _ h).trans (ihl _ _ _ _ heq)).trans
                (List.suffix_cons _ _)
    · intro lines acc r rest h
      cases lines with
      | nil =>
        simp only [parse_listF] at h
        cases h
        exact List.suffix_refl []
      | cons line rest0 =>
        simp only [parse_listF] at h
        split at h
        · cases h
          exact List.suffix_cons _ _
        · split at h
          · exact (ihs _ _ _ _ h).trans (List.suffix_cons _ _)
          · split at h
            · split at h
              · next items heq =>
                exact (ihs _ _ _ _ h).trans (List.suffix_cons _ _)
              · next e heq =>
                cases h
                exact List.suffix_cons _ _
            · split at h
              · split at h
                · exact POut.noConfusion h
                · exact POut.noConfusion h
                · next e rest' heq =>
                  cases h
                  exact (ihb _ _ _ _ heq).trans (List.suffix_cons _ _)
                · next v rest' heq =>
                  exact ((ihs _ _ _ _ h).trans (ihb _ _ _ _ heq)).trans
                    (List.suffix_cons _ _)
              · exact (ihs _ _ _ _ h).trans (List.suffix_cons _ _)

/-- The inline-list parser has no failing path. -/
theorem parse_inline_list_ok (s : String) : ∃ items, parse_inline_list s = Except.ok items := by
  simp only [parse_inline_list]
  split
  · exact ⟨_, rfl⟩
  · exact ⟨_, rfl⟩

/-- With fuel at least linear in the number of remaining lines, no parsing
function runs out of fuel: each one either returns a success (no routine
constructs an error) or propagates the dedent panic. -/
theorem parse_total (fuel : Nat) :
    (∀ lines line, 3 * lines.length + 3 ≤ fuel →
      (∃ node rest, parse_lineF fuel lines line = POut.ret (Except.ok node, rest)) ∨
      parse_lineF fuel lines line = POut.panic) ∧
    (∀ lines vp ta, 3 * lines.length + 2 ≤ fuel →
      (∃ v rest, parse_valueF fuel lines vp ta = POut.ret (Except.ok v, rest)) ∨
      parse_valueF fuel lines vp ta = POut.panic) ∧
    (∀ lines block, 3 * lines.length + 1 ≤ fuel →
      (∃ v rest, parse_blockF fuel lines block = POut.ret (Except.ok v, rest)) ∨
      parse_blockF fuel lines block = POut.panic) ∧
    (∀ lines acc, 3 * lines.length + 1 ≤ fuel →
      (∃ v rest, parse_listF fuel lines acc = POut.ret (Except.ok v, rest)) ∨
      parse_listF fuel lines acc = POut.panic) := by
  induction fuel with
  | zero =>
    refine ⟨?_, ?_, ?_, ?_⟩
    · intro lines line h
      exact absurd h (by omega)
    · intro lines vp ta h
      exact absurd h (by omega)
    · intro lines block h
      exact absurd h (by omega)
    · intro lines acc h
      exact absurd h (by omega)
  | succ f ih =>
    obtain ⟨ihl, ihv, ihb, ihs⟩ := ih
    have hline : ∀ lines line, 3 * lines.length + 3 ≤ f + 1 →
        (∃ node rest, parse_lineF (f + 1) lines line = POut.ret (Except.ok node, rest)) ∨
        parse_lineF (f + 1) lines line = POut.panic := by
      intro lines line hf
      rcases ihv lines (split_key_value line).2 (parse_key_and_type (split_key_value line).1).2
          (by omega) with ⟨v, rest, hv⟩ | hv
      · refine Or.inl ⟨⟨(parse_key_and_type (split_key_value line).1).1,
          (parse_key_and_type (split_key_value line).1).2, v⟩, rest, ?_⟩
        simp only [parse_lineF, hv]
      · refine Or.inr ?_
        simp only [parse_lineF, hv]
    refine ⟨hline, ?_, ?_, ?_⟩
    · intro lines vp ta hf
      simp only [parse_valueF]
      split
      · exact ihb lines [] (by omega)
      · split
        · exact ihs lines [] (by omega)
        · split
          · exact parse_multiline_total lines ta
          · split
            · obtain ⟨items, hit⟩ := parse_inline_list_ok vp
              rw [hit]
              exact Or.inl ⟨_, _, rfl⟩
            · exact Or.inl ⟨_, _, rfl⟩
    · intro lines block hf
      cases lines with
      | nil => exact Or.inl ⟨_, _, rfl⟩
      | cons line rest0 =>
        simp only [parse_blockF]
        split
        · exact Or.inl ⟨_, _, rfl⟩
        · split
          · exact ihb rest0 block (by simp at hf ⊢; omega)
          · rcases ihl rest0 (rustTrim line) (by simp at hf ⊢; omega) with
              ⟨node, rest', hl⟩ | hl
            · rw [hl]
              have hlen := ((parse_suffix f).1 _ _ _ _ hl).length_le
              exact ihb rest' (insertKV block node.key node.value)
                (by simp at hf; omega)
            · rw [hl]
              exact Or.inr rfl
    · intro lines acc hf
      cases lines with
      | nil => exact Or.inl ⟨_, _, rfl⟩
      | cons line rest0 =>
        simp only [parse_listF]
        split
        · exact Or.inl ⟨_, _, rfl⟩
        · split
          · exact ihs rest0 acc (by simp at hf ⊢; omega)
          · split
            · obtain ⟨items, hit⟩ := parse_inline_list_ok (rustTrim line)
              rw [hit]
              exact ihs rest0 (acc ++ [Value.list items]) (by simp at hf ⊢; omega)
            · split
              · rcases ihb rest0 [] (by simp at hf ⊢; omega) with ⟨v, rest', hb⟩ | hb
                · rw [hb]
                  have hlen := ((parse_suffix f).2.2.1 _ _ _ _ hb).length_le
                  exact ihs rest' (acc ++ [v]) (by simp at hf; omega)
                · rw [hb]
                  exact Or.inr rfl
              · exact ihs rest0 (acc ++ [Value.string (rustTrim line)])
                  (by simp at hf ⊢; omega)

/-- With fuel at least linear in the number of remaining lines, the document
loop either returns a success or propagates the dedent panic. -/
theorem parse_documentF_total :
    ∀ (fuel idx : Nat) (lines : List String) (nodes : List Node),
      3 * lines.length + 1 ≤ fuel →
      (∃ ns, parse_documentF fuel idx lines nodes = POut.ret (Except.ok ⟨ns⟩)) ∨
      parse_documentF fuel idx lines nodes = POut.panic := by
  intro fuel
  induction fuel with
  | zero =>
    intro idx lines nodes h
    exact absurd h (by omega)
  | succ f ih =>
    intro idx lines nodes hf
    cases lines with
    | nil => exact Or.inl ⟨nodes, rfl⟩
    | cons line rest0 =>
      simp only [parse_documentF]
      split
      · exact ih (idx + 1) rest0 nodes (by simp at hf ⊢; omega)
      · rcases (parse_total f).1 rest0 line (by simp at hf ⊢; omega) with
          ⟨node, rest', hl⟩ | hl
        · rw [hl]
          have hlen := ((parse_suffix f).1 rest0 line _ _ hl).length_le
          exact ih _ rest' (nodes ++ [node]) (by simp at hf; omega)
        · rw [hl]
          exact Or.inr rfl

/-- Counterexample to C3 as stated: on `"d!1 ```\né\n```"` the program does
not return a `Result` at all — dedent slices `&"é"[1..]`, and byte 1 is not
a character boundary of the two-byte character `é`, so the parse terminates
abnormally (a panic). -/
theorem C3_counterexample : parse "d!1 ```\né\n```" = POut.panic := rfl

/-- C3 (amended): for every input string `parse` fully completes within fuel
linear in the number of input lines — it never runs out of cursor, and
iteration over the line cursor is strictly forward and bounded (every
parsing function returns a cursor no longer than the one it was given) —
and it either returns a `Result` value or terminates abnormally through the
byte-boundary panic of dedent (see the counterexample); it cannot hang. -/
theorem C3_terminates :
    (∀ input : String, (∃ r, parse input = POut.ret r) ∨ parse input = POut.panic) ∧
    (∀ fuel lines line r rest, parse_lineF fuel lines line = POut.ret (r, rest) →
      rest.length ≤ lines.length) ∧
    (∀ fuel lines block r rest, parse_blockF fuel lines block = POut.ret (r, rest) →
      rest.length ≤ lines.length) ∧
    (∀ fuel lines acc r rest, parse_listF fuel lines acc = POut.ret (r, rest) →
      rest.length ≤ lines.length) := by
  refine ⟨?_, ?_, ?_, ?_⟩
  · intro input
    rcases parse_documentF_total _ 0 (rustLines input) [] (le_refl _) with ⟨ns, h⟩ | h
    · exact Or.inl ⟨_, h⟩
    · exact Or.inr h
  · intro fuel lines line r rest h
    exact ((parse_suffix fuel).1 _ _ _ _ h).length_le
  · intro fuel lines block r rest h
    exact ((parse_suffix fuel).2.2.1 _ _ _ _ h).length_le
  · intro fuel lines acc r rest h
    exact ((parse_suffix fuel).2.2.2 _ _ _ _ h).length_le

/-- Witness for C3 (amended) at concrete inputs: a scalar key line, a block
closed by a brace line, and a list closed by a bracket line. -/
theorem C3_witness :
    ([] : List String).length ≤ ([] : List String).length ∧
    ([] : List String).length ≤ (["\x7d"] : List String).length ∧
    ([] : List String).length ≤ (["]"] : List String).length :=
  ⟨C3_terminates.2.1 2 [] "k v" (Except.ok ⟨"k", none, Value.string "v"⟩) [] rfl,
   C3_terminates.2.2.1 1 ["\x7d"] [] (Except.ok (Value.block [])) [] rfl,
   C3_terminates.2.2.2 1 ["]"] [] (Except.ok (Value.list [])) [] rfl⟩

/-- Counterexample to C5 as stated: on `"m!1 ```\n€\n```"` the program does
not return `Ok` — dedent slices `&"€"[1..]` and byte 1 falls inside the
three-byte character `€`, so the parse panics instead of returning. -/
theorem C5_counterexample : parse "m!1 ```\n€\n```" = POut.panic := rfl

/-- C5 (amended): `parse` never returns an `Err`: no parsing routine
constructs a `ParseError`, so on every input it either returns `Ok` or
terminates abnormally through the dedent byte-boundary panic (see the
counterexample). -/
theorem C5_never_err :
    (∀ (input : String) (e : ParseError), parse input ≠ POut.ret (Except.error e)) ∧
    (∀ input : String,
      (∃ doc, parse input = POut.ret (Except.ok doc)) ∨ parse input = POut.panic) := by
  have htot : ∀ input : String,
      (∃ doc, parse input = POut.ret (Except.ok doc)) ∨ parse input = POut.panic := by
    intro input
    rcases parse_documentF_total _ 0 (rustLines input) [] (le_refl _) with ⟨ns, h⟩ | h
    · exact Or.inl ⟨⟨ns⟩, h⟩
    · exact Or.inr h
  refine ⟨?_, htot⟩
  intro input e hc
  rcases htot input with ⟨doc, h⟩ | h
  · rw [hc] at h
    cases h
  · rw [hc] at h
    exact POut.noConfusion h

/-- Witness for C5 (amended) at the empty input. -/
theorem C5_witness :
    parse "" ≠ POut.ret (Except.error ParseError.UnexpectedEof) ∧
    ((∃ doc, parse "" = POut.ret (Except.ok doc)) ∨ parse "" = POut.panic) :=
  ⟨C5_never_err.1 "" ParseError.UnexpectedEof, C5_never_err.2 ""⟩

theorem toList_mk (l : List Char) : (String.mk l).toList = l := rfl

/-- The key part of a line contains no whitespace: it is a trimmed prefix of
the maximal whitespace-free prefix of the line. -/
theorem split_key_value_no_ws (line : String) : keyOkStr (split_key_value line).1 := by
  intro c hc
  simp only [split_key_value] at hc
  have h1 : c ∈ line.toList.takeWhile (fun c => !rustIsWhitespace c) :=
    mem_of_mem_rustTrim hc
  simpa using List.mem_takeWhile_imp h1

/-- The key is a prefix of the key part, hence also whitespace-free. -/
theorem parse_key_and_type_no_ws (kp : String) (hkp : keyOkStr kp) :
    keyOkStr (parse_key_and_type kp).1 := by
  intro c hc
  by_cases h : '!' ∈ kp.toList
  · simp only [parse_key_and_type, if_pos h, toList_mk] at hc
    exact hkp c ((List.takeWhile_prefix _).subset hc)
  · simp only [parse_key_and_type, if_neg h] at hc
    exact hkp c hc

theorem listKeysOk_strings : ∀ (l : List (List Char)) (f : List Char → String),
    listKeysOk (l.map (fun seg => Value.string (f seg))) := by
  intro l f
  induction l with
  | nil => simp [listKeysOk]
  | cons x xs ih => simpa [listKeysOk, valueKeysOk] using ih

/-- Values produced by the inline-list parser contain no keys at all. -/
theorem parse_inline_list_keysOk {s : String} {items : List Value}
    (h : parse_inline_list s = Except.ok items) : listKeysOk items := by
  simp only [parse_inline_list] at h
  split at h
  · cases h
    simp [listKeysOk]
  · cases h
    exact listKeysOk_strings _ _

theorem blockKeysOk_insertKV {m : List (String × Value)} {k : String} {v : Value}
    (hk : keyOkStr k) (hv : valueKeysOk v) (hm : blockKeysOk m) :
    blockKeysOk (insertKV m k v) := by
  induction m with
  | nil =>
    simp only [insertKV, blockKeysOk]
    exact ⟨hk, hv, trivial⟩
  | cons kv' rest ih =>
    obtain ⟨k', v'⟩ := kv'
    obtain ⟨h1, h2, h3⟩ : keyOkStr k' ∧ valueKeysOk v' ∧ blockKeysOk rest := by
      simpa [blockKeysOk] using hm
    simp only [insertKV]
    by_cases he : k' = k
    · simp only [if_pos he, blockKeysOk]
      exact ⟨hk, hv, h3⟩
    · simp only [if_neg he, blockKeysOk]
      exact ⟨h1, h2, ih h3⟩

theorem listKeysOk_append_one {l : List Value} {v : Value}
    (hl : listKeysOk l) (hv : valueKeysOk v) : listKeysOk (l ++ [v]) := by
  induction l with
  | nil =>
    simp only [List.nil_append, listKeysOk]
    exact ⟨hv, trivial⟩
  | cons x xs ih =>
    obtain ⟨h1, h2⟩ : valueKeysOk x ∧ listKeysOk xs := by simpa [listKeysOk] using hl
    simp only [List.cons_append, listKeysOk]
    exact ⟨h1, ih h2⟩

/-- Every successful parsing result has whitespace-free keys everywhere. -/
theorem parse_keys (fuel : Nat) :
    (∀ lines line node rest, parse_lineF fuel lines line = POut.ret (Except.ok node, rest) →
      keyOkStr node.key ∧ valueKeysOk node.value) ∧
    (∀ lines vp ta v rest, parse_valueF fuel lines vp ta = POut.ret (Except.ok v, rest) →
      valueKeysOk v) ∧
    (∀ lines block v rest, blockKeysOk block →
      parse_blockF fuel lines block = POut.ret (Except.ok v, rest) → valueKeysOk v) ∧
    (∀ lines acc v rest, listKeysOk acc →
      parse_listF fuel lines acc = POut.ret (Except.ok v, rest) → valueKeysOk v) := by
  induction fuel with
  | zero =>
    refine ⟨?_, ?_, ?_, ?_⟩
    · intro lines line node rest h
      exact POut.noConfusion h
    · intro lines vp ta v rest h
      exact POut.noConfusion h
    · intro lines block v rest hb h
      cases lines with
      | nil =>
        simp only [parse_blockF] at h
        cases h
        simpa [valueKeysOk] using hb
      | cons l ls => exact POut.noConfusion h
    · intro lines acc v rest ha h
      cases lines with
      | nil =>
        simp only [parse_listF] at h
        cases h
        simpa [valueKeysOk] using ha
      | cons l ls => exact POut.noConfusion h
  | succ f ih =>
    obtain ⟨ihl, ihv, ihb, ihs⟩ := ih
    have hline : ∀ lines line node rest,
        parse_lineF (f + 1) lines line = POut.ret (Except.ok node, rest) →
        keyOkStr node.key ∧ valueKeysOk node.value := by
      intro lines line node rest h
      simp only [parse_lineF] at h
      split at h
      · exact POut.noConfusion h
      · exact POut.noConfusion h
      · exact absurd h (by simp)
      · next v rest' heq =>
        cases h
        exact ⟨parse_key_and_type_no_ws _ (split_key_value_no_ws line),
          ihv _ _ _ _ _ heq⟩
    refine ⟨hline, ?_, ?_, ?_⟩
    · intro lines vp ta v rest h
      simp only [parse_valueF] at h
      split at h
      · exact ihb _ _ _ _ (by simp [blockKeysOk]) h
      · split at h
        · exact ihs _ _ _ _ (by simp [listKeysOk]) h
        · split at h
          · obtain ⟨s, hs⟩ := parse_multiline_string h
            cases hs
            simp [valueKeysOk]
          · split at h
            · split at h
              · next items heq =>
                cases h
                simpa [valueKeysOk] using parse_inline_list_keysOk heq
              · exact absurd h (by simp)
            · cases h
              simp [valueKeysOk]
    · intro lines block v rest hb h
      cases lines with
      | nil =>
        simp only [parse_blockF] at h
        cases h
        simpa [valueKeysOk] using hb
      | cons line rest0 =>
        simp only [parse_blockF] at h
        split at h
        · cases h
          simpa [valueKeysOk] using hb
        · split at h
          · exact ihb _ _ _ _ hb h
          · split at h
            · exact POut.noConfusion h
            · exact POut.noConfusion h
            · exact absurd h (by simp)
            · next node rest' heq =>
              obtain ⟨hk, hv⟩ := ihl _ _ _ _ heq
              exact ihb _ _ _ _ (blockKeysOk_insertKV hk hv hb) h
    · intro lines acc v rest ha h
      cases lines with
      | nil =>
        simp only [parse_listF] at h
        cases h
        simpa [valueKeysOk] using ha
      | cons line rest0 =>
        simp only [parse_listF] at h
        split at h
        · cases h
          simpa [valueKeysOk] using ha
        · split at h
          · exact ihs _ _ _ _ ha h
          · split at h
            · split at h
              · next items heq =>
                exact ihs _ _ _ _
                  (listKeysOk_append_one ha
                    (by simpa [valueKeysOk] using parse_inline_list_keysOk heq)) h
              · exact absurd h (by simp)
            · split at h
              · split at h
                · exact POut.noConfusion h
                · exact POut.noConfusion h
                · exact absurd h (by simp)
                · next v' rest' heq =>
                  have hv' := ihb _ _ _ _ (by simp [blockKeysOk]) heq
                  exact ihs _ _ _ _ (listKeysOk_append_one ha hv') h
              · exact ihs _ _ _ _
                  (listKeysOk_append_one ha (by simp [valueKeysOk])) h

/-- The document loop preserves whitespace-free keys of accumulated nodes. -/
theorem parse_documentF_keys :
    ∀ (fuel idx : Nat) (lines : List String) (nodes : List Node) (d : Document),
      (∀ n ∈ nodes, keyOkStr n.key ∧ valueKeysOk n.value) →
      parse_documentF fuel idx lines nodes = POut.ret (Except.ok d) →
      ∀ n ∈ d.nodes, keyOkStr n.key ∧ valueKeysOk n.value := by
  intro fuel
  induction fuel with
  | zero =>
    intro idx lines nodes d hn h
    cases lines with
    | nil =>
      simp only [parse_documentF] at h
      cases h
      exact hn
    | cons l ls => exact POut.noConfusion h
  | succ f ih =>
    intro idx lines nodes d hn h
    cases lines with
    | nil =>
      simp only [parse_documentF] at h
      cases h
      exact hn
    | cons line rest0 =>
      simp only [parse_documentF] at h
      split at h
      · exact ih _ _ _ _ hn h
      · split at h
        · exact POut.noConfusion h
        · exact POut.noConfusion h
        · exact absurd h (by simp)
        · next node rest' heq =>
          have hnode := (parse_keys f).1 _ _ _ _ heq
          refine ih _ _ _ _ ?_ h
          intro n hmem
          rcases List.mem_append.mp hmem with hmem | hmem
          · exact hn n hmem
          · rcases List.mem_singleton.mp hmem with rfl
            exact hnode

/-- Counterexample to C1 as stated: on the input `"!a b"` the parser
produces a node whose key is the empty string (the key part `"!a"` starts
with `!`, so everything before the `!` — nothing — becomes the key), so keys
are not always non-empty. -/
theorem C1_counterexample :
    parse "!a b" = POut.ret (Except.ok ⟨[⟨"", some "a", Value.string "b"⟩]⟩) ∧
    ¬ docKeysNonempty ⟨[⟨"", some "a", Value.string "b"⟩]⟩ := by
  refine ⟨rfl, ?_⟩
  intro h
  exact h ⟨"", some "a", Value.string "b"⟩ (by simp) rfl

/-- C1 (amended): every node produced by a successful parse — at the top
level and recursively inside block and list values — has a key containing no
whitespace character.  The non-emptiness half of the original claim fails
(see the counterexample): a key is empty when the key part starts with `!`
or the line starts with whitespace. -/
theorem C1_keys_whitespace_free :
    ∀ (input : String) (d : Document), parse input = POut.ret (Except.ok d) →
      ∀ n ∈ d.nodes, keyOkStr n.key ∧ valueKeysOk n.value := by
  intro input d h
  exact parse_documentF_keys _ 0 (rustLines input) [] d (by simp) h

/-- Witness for C1 (amended) at the concrete input `"a b"`. -/
theorem C1_witness : keyOkStr "a" ∧ valueKeysOk (Value.string "b") :=
  C1_keys_whitespace_free "a b" ⟨[⟨"a", none, Value.string "b"⟩]⟩ rfl
    ⟨"a", none, Value.string "b"⟩ (by simp)

theorem rustUtf8Len_pos (c : Char) : 1 ≤ rustUtf8Len c := by
  simp only [rustUtf8Len]
  split_ifs <;> omega

/-- Dropping the byte length of a character prefix removes exactly that
prefix. -/
theorem dropBytes_prefix :
    ∀ (pre suf : List Char),
      dropBytes (pre ++ suf) ((pre.map rustUtf8Len).sum) = some suf := by
  intro pre
  induction pre with
  | nil =>
    intro suf
    simp [dropBytes]
  | cons c pre' ih =>
    intro suf
    have hpos := rustUtf8Len_pos c
    have hsum : ((c :: pre').map rustUtf8Len).sum =
        rustUtf8Len c + ((pre'.map rustUtf8Len).sum) := by
      simp
    obtain ⟨a, ha⟩ : ∃ a, rustUtf8Len c + ((pre'.map rustUtf8Len).sum) = a + 1 :=
      ⟨rustUtf8Len c + ((pre'.map rustUtf8Len).sum) - 1, by omega⟩
    rw [hsum, ha]
    simp only [List.cons_append, dropBytes]
    rw [if_pos (by omega), show a + 1 - rustUtf8Len c = (pre'.map rustUtf8Len).sum by omega]
    exact ih suf

/-- When the dedent amount is the byte length of a character prefix of the
line, the dedent closure removes exactly that prefix. -/
theorem dedentLineB_boundary (amount : Nat) (line : String) (pre suf : List Char)
    (hsplit : line.toList = pre ++ suf) (hsum : (pre.map rustUtf8Len).sum = amount) :
    dedentLineB amount line = some ⟨suf⟩ := by
  have hle : amount ≤ strByteLen line := by
    rw [strByteLen, hsplit]
    simp only [List.map_append, List.sum_append]
    omega
  simp only [dedentLineB, if_pos hle, hsplit]
  rw [← hsum, dropBytes_prefix pre suf]

/-- C2 (amended): `Parser::dedent` works on bytes, not characters: a content
line whose byte length is at least `N` loses exactly its first `N` bytes —
the removed part is the character prefix of byte size `N`, and slicing
panics when no character boundary falls at byte `N` — while a line whose
byte length is below `N` is returned unchanged; the dedent runs exactly
when the type annotation parses as a `usize`, and a dedent panic is the
panic of the whole multiline parse.  On ASCII content bytes coincide with
characters, as in the concrete `d!2` block. -/
theorem C2_dedent_bytes :
    (∀ (amount : Nat) (line : String) (pre suf : List Char),
      line.toList = pre ++ suf → (pre.map rustUtf8Len).sum = amount →
      dedentLineB amount line = some ⟨suf⟩) ∧
    (∀ (amount : Nat) (line : String), strByteLen line < amount →
      dedentLineB amount line = some line) ∧
    (∀ (amount : Nat) (line : String), dedentLineB amount line = none →
      ∀ pre suf : List Char, line.toList = pre ++ suf →
        (pre.map rustUtf8Len).sum ≠ amount) ∧
    (∀ (lines : List String) (ts : String) (n : Nat) (text' : String),
      parse_usize ts = some n →
      dedentB (String.intercalate "\n" (collectMultiline lines).1) n = some text' →
      parse_multiline lines (some ts) =
        POut.ret (Except.ok (Value.string text'), (collectMultiline lines).2)) ∧
    (∀ (lines : List String) (ts : String) (n : Nat),
      parse_usize ts = some n →
      dedentB (String.intercalate "\n" (collectMultiline lines).1) n = none →
      parse_multiline lines (some ts) = POut.panic) ∧
    parse "d!2 ```\n  ab\nx\n```" =
      POut.ret (Except.ok ⟨[⟨"d", some "2", Value.string "ab\nx"⟩]⟩) := by
  refine ⟨dedentLineB_boundary, ?_, ?_, ?_, ?_, rfl⟩
  · intro amount line h
    simp only [dedentLineB]
    rw [if_neg (by omega)]
  · intro amount line h pre suf hsplit hsum
    rw [dedentLineB_boundary amount line pre suf hsplit hsum] at h
    cases h
  · intro lines ts n text' h1 h2
    simp only [parse_multiline, h1, h2]
  · intro lines ts n h1 h2
    simp only [parse_multiline, h1, h2]

/-- Counterexample to C2 as stated: in the block `d!2`, the one-character
content line `"é"` is shorter than `N = 2` in characters, yet it is not
left unchanged — its byte length is 2, so the program strips both bytes and
empties the line. -/
theorem C2_counterexample :
    parse "d!2 ```\né\n```" =
      POut.ret (Except.ok ⟨[⟨"d", some "2", Value.string ""⟩]⟩) ∧
    "é".toList.length = 1 ∧ dedentLineB 2 "é" = some "" :=
  ⟨rfl, rfl, rfl⟩

/-- Witness for C2 (amended) at concrete lines and annotation. -/
theorem C2_witness :
    dedentLineB 2 "  ab" = some "ab" ∧
    dedentLineB 5 "x" = some "x" ∧
    (List.map rustUtf8Len []).sum ≠ 1 ∧
    parse_multiline ["```"] (some "2") =
      POut.ret (Except.ok (Value.string ""), []) :=
  ⟨C2_dedent_bytes.1 2 "  ab" [' ', ' '] ['a', 'b'] rfl rfl,
   C2_dedent_bytes.2.1 5 "x" (by decide),
   C2_dedent_bytes.2.2.1 1 "é" rfl [] ['é'] rfl,
   C2_dedent_bytes.2.2.2.1 ["```"] "2" 2 "" rfl rfl⟩

/-- An unterminated block consumes all remaining lines and, unless a nested
dedent panics, still succeeds. -/
theorem parse_blockF_no_terminator :
    ∀ (fuel : Nat) (lines : List String) (block : List (String × Value)),
      3 * lines.length + 1 ≤ fuel → (∀ l ∈ lines, rustTrim l ≠ "\x7d") →
      (∃ m, parse_blockF fuel lines block = POut.ret (Except.ok (Value.block m), [])) ∨
      parse_blockF fuel lines block = POut.panic := by
  intro fuel
  induction fuel with
  | zero =>
    intro lines block h _
    exact absurd h (by omega)
  | succ f ih =>
    intro lines block hf hno
    cases lines with
    | nil => exact Or.inl ⟨block, rfl⟩
    | cons line rest0 =>
      simp only [parse_blockF]
      split
      · next hbr => exact absurd hbr (hno line (by simp))
      · split
        · exact ih rest0 block (by simp at hf ⊢; omega)
            (fun l hl => hno l (List.mem_cons_of_mem _ hl))
        · rcases (parse_total f).1 rest0 (rustTrim line) (by simp at hf ⊢; omega) with
            ⟨node, rest', hl⟩ | hl
          · rw [hl]
            have hsuf := (parse_suffix f).1 _ _ _ _ hl
            exact ih rest' (insertKV block node.key node.value)
              (by have := hsuf.length_le; simp at hf; omega)
              (fun l hl' => hno l (List.mem_cons_of_mem _ (hsuf.subset hl')))
          · rw [hl]
            exact Or.inr rfl

/-- An unterminated list consumes all remaining lines and, unless a nested
dedent panics, still succeeds. -/
theorem parse_listF_no_terminator :
    ∀ (fuel : Nat) (lines : List String) (acc : List Value),
      3 * lines.length + 1 ≤ fuel → (∀ l ∈ lines, rustTrim l ≠ "]") →
      (∃ elems, parse_listF fuel lines acc = POut.ret (Except.ok (Value.list elems), [])) ∨
      parse_listF fuel lines acc = POut.panic := by
  intro fuel
  induction fuel with
  | zero =>
    intro lines acc h _
    exact absurd h (by omega)
  | succ f ih =>
    intro lines acc hf hno
    cases lines with
    | nil => exact Or.inl ⟨acc, rfl⟩
    | cons line rest0 =>
      simp only [parse_listF]
      split
      · next hbr => exact absurd hbr (hno line (by simp))
      · split
        · exact ih rest0 acc (by simp at hf ⊢; omega)
            (fun l hl => hno l (List.mem_cons_of_mem _ hl))
        · split
          · obtain ⟨items, hit⟩ := parse_inline_list_ok (rustTrim line)
            rw [hit]
            exact ih rest0 (acc ++ [Value.list items]) (by simp at hf ⊢; omega)
              (fun l hl => hno l (List.mem_cons_of_mem _ hl))
          · split
            · rcases (parse_total f).2.2.1 rest0 [] (by simp at hf ⊢; omega) with
                ⟨v, rest', hb⟩ | hb
              · rw [hb]
                have hsuf := (parse_suffix f).2.2.1 _ _ _ _ hb
                exact ih rest' (acc ++ [v])
                  (by have := hsuf.length_le; simp at hf; omega)
                  (fun l hl' => hno l (List.mem_cons_of_mem _ (hsuf.subset hl')))
              · rw [hb]
                exact Or.inr rfl
            · exact ih rest0 (acc ++ [Value.string (rustTrim line)])
                (by simp at hf ⊢; omega)
                (fun l hl => hno l (List.mem_cons_of_mem _ hl))

/-- Without a terminator line, the multiline collector keeps every line as
content and exhausts the cursor. -/
theorem collectMultiline_no_terminator :
    ∀ lines : List String, (∀ l ∈ lines, rustTrim l ≠ "```") →
      collectMultiline lines = (lines, []) := by
  intro lines
  induction lines with
  | nil => intro _; rfl
  | cons line rest ih =>
    intro hno
    simp only [collectMultiline]
    rw [if_neg (hno line (by simp))]
    simp [ih (fun l hl => hno l (List.mem_cons_of_mem _ hl))]

/-- Counterexample to C4 as stated: the multiline block of `"d!1 ```\né"` is
opened and never closed, but the parser does not return the accumulated
content — dedenting the collected content panics on the byte slice
`&"é"[1..]`, so the parse terminates abnormally instead. -/
theorem C4_counterexample :
    parse "d!1 ```\né" = POut.panic ∧ rustTrim "é" ≠ "```" :=
  ⟨rfl, by decide⟩

/-- C4 (amended): when a block, a bracketed multiline list, or a multiline
text block is opened and the input ends before the closing `}`, `]` or
triple backtick line, the parser never reports an error for the missing
terminator: it consumes all remaining lines and returns the accumulated
content — except that a dedent inside (a multiline form whose annotation is
a number, over content with a byte slice off a character boundary) panics
instead of returning, as in the counterexample. -/
theorem C4_unterminated :
    (∀ (fuel : Nat) (lines : List String) (block : List (String × Value)),
      3 * lines.length + 1 ≤ fuel → (∀ l ∈ lines, rustTrim l ≠ "\x7d") →
      (∃ m, parse_blockF fuel lines block = POut.ret (Except.ok (Value.block m), [])) ∨
      parse_blockF fuel lines block = POut.panic) ∧
    (∀ (fuel : Nat) (lines : List String) (acc : List Value),
      3 * lines.length + 1 ≤ fuel → (∀ l ∈ lines, rustTrim l ≠ "]") →
      (∃ elems, parse_listF fuel lines acc = POut.ret (Except.ok (Value.list elems), [])) ∨
      parse_listF fuel lines acc = POut.panic) ∧
    (∀ (lines : List String) (annot : Option String),
      (∀ l ∈ lines, rustTrim l ≠ "```") →
      collectMultiline lines = (lines, []) ∧
      ((∃ text, parse_multiline lines annot = POut.ret (Except.ok (Value.string text), [])) ∨
        parse_multiline lines annot = POut.panic)) := by
  refine ⟨parse_blockF_no_terminator, parse_listF_no_terminator, ?_⟩
  intro lines annot hno
  have hc := collectMultiline_no_terminator lines hno
  refine ⟨hc, ?_⟩
  rcases parse_multiline_total lines annot with ⟨v, rest, hm⟩ | hm
  · obtain ⟨t, ht⟩ := parse_multiline_string hm
    cases ht
    have hr := parse_multiline_rest hm
    rw [hc] at hr
    subst hr
    exact Or.inl ⟨t, hm⟩
  · exact Or.inr hm

/-- Witness for C4 (amended) at concrete unterminated inputs. -/
theorem C4_witness :
    ((∃ m, parse_blockF 4 ["a 1"] [] = POut.ret (Except.ok (Value.block m), [])) ∨
      parse_blockF 4 ["a 1"] [] = POut.panic) ∧
    ((∃ elems, parse_listF 4 ["x"] [] = POut.ret (Except.ok (Value.list elems), [])) ∨
      parse_listF 4 ["x"] [] = POut.panic) ∧
    (collectMultiline ["raw"] = (["raw"], []) ∧
      ((∃ text, parse_multiline ["raw"] none =
          POut.ret (Except.ok (Value.string text), [])) ∨
        parse_multiline ["raw"] none = POut.panic)) :=
  ⟨C4_unterminated.1 4 ["a 1"] [] (by decide) (by decide),
   C4_unterminated.2.1 4 ["x"] [] (by decide) (by decide),
   C4_unterminated.2.2 ["raw"] none (by decide)⟩

/-- C6: a line whose trimmed text is empty or starts with `#` is skipped —
it produces no node and no error — at the top level, inside a block, and
inside a bracketed multiline list; but the multiline collector keeps every
such raw line as content. -/
theorem C6_comments_and_blanks :
    (∀ (fuel idx : Nat) (line : String) (rest : List String) (nodes : List Node),
      rustTrim line = "" ∨ strStarts (rustTrim line) "#" = true →
      parse_documentF (fuel + 1) idx (line :: rest) nodes =
        parse_documentF fuel (idx + 1) rest nodes) ∧
    (∀ (fuel : Nat) (line : String) (rest : List String) (block : List (String × Value)),
      rustTrim line = "" ∨ strStarts (rustTrim line) "#" = true →
      parse_blockF (fuel + 1) (line :: rest) block = parse_blockF fuel rest block) ∧
    (∀ (fuel : Nat) (line : String) (rest : List String) (acc : List Value),
      rustTrim line = "" ∨ strStarts (rustTrim line) "#" = true →
      parse_listF (fuel + 1) (line :: rest) acc = parse_listF fuel rest acc) ∧
    (∀ (line : String) (rest : List String),
      rustTrim line = "" ∨ strStarts (rustTrim line) "#" = true →
      collectMultiline (line :: rest) =
        (line :: (collectMultiline rest).1, (collectMultiline rest).2)) := by
  have hcond : ∀ line : String, rustTrim line = "" ∨ strStarts (rustTrim line) "#" = true →
      (decide (rustTrim line = "") || strStarts (rustTrim line) "#") = true := by
    intro line h
    rcases h with h | h
    · simp [h]
    · simp [h]
  have hneq : ∀ (line t : String), t ≠ "" → strStarts t "#" = false →
      rustTrim line = "" ∨ strStarts (rustTrim line) "#" = true →
      ¬ (rustTrim line = t) := by
    intro line t hte ht h hc
    rcases h with h | h
    · rw [hc] at h
      exact hte h
    · rw [hc] at h
      rw [h] at ht
      cases ht
  refine ⟨?_, ?_, ?_, ?_⟩
  · intro fuel idx line rest nodes h
    simp only [parse_documentF]
    rw [if_pos (hcond line h)]
  · intro fuel line rest block h
    simp only [parse_blockF]
    rw [if_neg (hneq line "\x7d" (by decide) (by decide) h), if_pos (hcond line h)]
  · intro fuel line rest acc h
    simp only [parse_listF]
    rw [if_neg (hneq line "]" (by decide) (by decide) h), if_pos (hcond line h)]
  · intro line rest h
    simp only [collectMultiline]
    rw [if_neg (hneq line "```" (by decide) (by decide) h)]

/-- Witness for C6 at a comment line and a blank line. -/
theorem C6_witness :
    parse_documentF 1 0 ["# note"] [] = parse_documentF 0 1 [] [] ∧
    parse_blockF 1 ["   "] [] = parse_blockF 0 [] [] ∧
    parse_listF 1 ["# x"] [] = parse_listF 0 [] [] ∧
    collectMultiline ["# keep"] =
      ("# keep" :: (collectMultiline []).1, (collectMultiline []).2) :=
  ⟨C6_comments_and_blanks.1 0 0 "# note" [] [] (Or.inr (by decide)),
   C6_comments_and_blanks.2.1 0 "   " [] [] (Or.inl (by decide)),
   C6_comments_and_blanks.2.2.1 0 "# x" [] [] (Or.inr (by decide)),
   C6_comments_and_blanks.2.2.2 "# keep" [] (Or.inr (by decide))⟩

/-- Looking up a key right after inserting it yields the inserted value:
the later occurrence wins. -/
theorem insertKV_lookup (m : List (String × Value)) (k : String) (v : Value) :
    List.lookup k (insertKV m k v) = some v := by
  induction m with
  | nil => simp [insertKV, List.lookup]
  | cons kv' rest ih =>
    obtain ⟨k', v'⟩ := kv'
    simp only [insertKV]
    by_cases he : k' = k
    · simp [he, List.lookup]
    · have hbe : (k == k') = false := by
        simp only [beq_eq_false_iff_ne, ne_eq]
        exact fun hc => he hc.symm
      simp only [if_neg he, List.lookup, hbe]
      exact ih

theorem insertKV_fst_mem {m : List (String × Value)} {k a : String} {v : Value}
    (h : a ∈ (insertKV m k v).map Prod.fst) : a ∈ m.map Prod.fst ∨ a = k := by
  induction m with
  | nil =>
    simp [insertKV] at h
    exact Or.inr h
  | cons kv' rest ih =>
    obtain ⟨k', v'⟩ := kv'
    simp only [insertKV] at h
    by_cases he : k' = k
    · rw [if_pos he] at h
      simp at h
      rcases h with h | h
      · exact Or.inr h
      · exact Or.inl (by simp [h])
    · rw [if_neg he] at h
      simp at h
      rcases h with h | h
      · exact Or.inl (by simp [h])
      · rcases ih (by simpa using h) with h' | h'
        · exact Or.inl (by simp at h' ⊢; exact Or.inr h')
        · exact Or.inr h'

/-- Inserting preserves distinctness of the keys of a block mapping. -/
theorem insertKV_keys_nodup {m : List (String × Value)} {k : String} {v : Value}
    (h : (m.map Prod.fst).Nodup) : ((insertKV m k v).map Prod.fst).Nodup := by
  induction m with
  | nil => simp [insertKV]
  | cons kv' rest ih =>
    obtain ⟨k', v'⟩ := kv'
    simp only [List.map_cons, List.nodup_cons] at h
    obtain ⟨hk', hrest⟩ := h
    simp only [insertKV]
    by_cases he : k' = k
    · rw [if_pos he]
      subst he
      simp only [List.map_cons, List.nodup_cons]
      exact ⟨hk', hrest⟩
    · rw [if_neg he]
      simp only [List.map_cons, List.nodup_cons]
      refine ⟨?_, ih hrest⟩
      intro hc
      rcases insertKV_fst_mem hc with h' | h'
      · exact hk' h'
      · exact he h'

/-- Blocks parsed from a mapping with distinct keys keep their keys
distinct. -/
theorem parse_blockF_nodup :
    ∀ (fuel : Nat) (lines : List String) (block m : List (String × Value))
      (rest : List String),
      parse_blockF fuel lines block = POut.ret (Except.ok (Value.block m), rest) →
      (block.map Prod.fst).Nodup → (m.map Prod.fst).Nodup := by
  intro fuel
  induction fuel with
  | zero =>
    intro lines block m rest h hb
    cases lines with
    | nil =>
      simp only [parse_blockF] at h
      cases h
      exact hb
    | cons l ls => exact POut.noConfusion h
  | succ f ih =>
    intro lines block m rest h hb
    cases lines with
    | nil =>
      simp only [parse_blockF] at h
      cases h
      exact hb
    | cons line rest0 =>
      simp only [parse_blockF] at h
      split at h
      · cases h
        exact hb
      · split at h
        · exact ih _ _ _ _ h hb
        · split at h
          · exact POut.noConfusion h
          · exact POut.noConfusion h
          · exact absurd h (by simp)
          · exact ih _ _ _ _ h (insertKV_keys_nodup hb)

/-- C7: a block mapping holds at most one entry per key (keys are distinct
after parsing), the entry inserted for a key replaces any earlier one (a
lookup after an insert returns the inserted value), and concretely a block
with a duplicate key `x` keeps only `x 2`, the later occurrence. -/
theorem C7_duplicate_keys :
    (∀ (fuel : Nat) (lines : List String) (block m : List (String × Value))
      (rest : List String),
      parse_blockF fuel lines block = POut.ret (Except.ok (Value.block m), rest) →
      (block.map Prod.fst).Nodup → (m.map Prod.fst).Nodup) ∧
    (∀ (m : List (String × Value)) (k : String) (v : Value),
      List.lookup k (insertKV m k v) = some v) ∧
    parse "s \x7b\nx 1\nx 2\n\x7d" =
      POut.ret (Except.ok ⟨[⟨"s", none, Value.block [("x", Value.string "2")]⟩]⟩) :=
  ⟨parse_blockF_nodup, insertKV_lookup, rfl⟩

/-- Witness for C7: the concrete duplicate-key block has distinct keys, and
inserting over an existing binding yields the new value. -/
theorem C7_witness :
    (([("x", Value.string "2")] : List (String × Value)).map Prod.fst).Nodup ∧
    List.lookup "x" (insertKV [("x", Value.string "1")] "x" (Value.string "2")) =
      some (Value.string "2") :=
  ⟨C7_duplicate_keys.1 4 ["x 1", "x 2", "\x7d"] [] [("x", Value.string "2")] [] rfl
      (by simp),
   C7_duplicate_keys.2.1 [("x", Value.string "1")] "x" (Value.string "2")⟩

/-- A value part in scalar position produces the verbatim string value,
whatever the annotation is. -/
theorem parse_valueF_scalar (f : Nat) (lines : List String) (vp : String)
    (annot : Option String) (hs : isScalarValB vp = true) :
    parse_valueF (f + 1) lines vp annot = POut.ret (Except.ok (Value.string vp), lines) := by
  have h1 : ¬ (vp = "\x7b") := by
    intro hc
    rw [hc] at hs
    exact absurd hs (by decide)
  have h2 : ¬ (vp = "[") := by
    intro hc
    rw [hc] at hs
    exact absurd hs (by decide)
  have h3 : strStarts vp "```" = false := by
    by_contra hq
    rw [Bool.not_eq_false] at hq
    simp [isScalarValB, hq] at hs
  have h4 : (strStarts vp "[" && strEnds vp "]") = false := by
    by_contra hq
    rw [Bool.not_eq_false] at hq
    simp [isScalarValB, hq] at hs
  simp only [parse_valueF]
  rw [if_neg h1, if_neg h2, if_neg (by simp [h3]), if_neg (by simp [h4])]

/-- A scalar key line produces its scalar node and consumes no extra
lines. -/
theorem scalar_line_step (f : Nat) (lines : List String) (line : String)
    (hs : isScalarValB (split_key_value line).2 = true) :
    parse_lineF (f + 2) lines line = POut.ret (Except.ok (scalarNode line), lines) := by
  have hv := parse_valueF_scalar f lines (split_key_value line).2
    (parse_key_and_type (split_key_value line).1).2 hs
  simp only [parse_lineF, hv]
  rfl

/-- A document made only of scalar key lines parses to exactly one node per
line, in source order. -/
theorem parse_documentF_scalar :
    ∀ (lines : List String) (fuel idx : Nat) (nodes : List Node),
      (∀ l ∈ lines, scalarLineB l = true) → 3 * lines.length + 1 ≤ fuel →
      parse_documentF fuel idx lines nodes =
        POut.ret (Except.ok ⟨nodes ++ lines.map scalarNode⟩) := by
  intro lines
  induction lines with
  | nil =>
    intro fuel idx nodes _ _
    simp [parse_documentF]
  | cons line rest ih =>
    intro fuel idx nodes hall hf
    obtain ⟨f, rfl⟩ : ∃ f, fuel = f + 1 := ⟨fuel - 1, by omega⟩
    have hline := hall line (by simp)
    simp only [scalarLineB, Bool.and_eq_true, Bool.not_eq_true', beq_eq_false_iff_ne,
      ne_eq] at hline
    obtain ⟨⟨⟨ha, hb⟩, hc'⟩, _⟩ := hline
    have hnb : ¬ ((decide (rustTrim line = "") || strStarts (rustTrim line) "#") = true) := by
      simp [ha, hb]
    obtain ⟨g, rfl⟩ : ∃ g, f = g + 2 := ⟨f - 2, by simp at hf; omega⟩
    simp only [parse_documentF]
    rw [if_neg hnb, scalar_line_step g rest line hc']
    simp only [Nat.sub_self, Nat.add_zero]
    rw [ih (g + 2) (idx + 1) (nodes ++ [scalarNode line])
      (fun l hl => hall l (List.mem_cons_of_mem _ hl)) (by simp at hf ⊢; omega)]
    simp

/-- C8: for inputs made only of non-blank, non-comment scalar key lines with
whitespace-free keys, the document has exactly one node per input line,
namely the scalar node of that line, in source order. -/
theorem C8_scalar_documents :
    ∀ input : String, (∀ l ∈ rustLines input, scalarLineB l = true) →
      parse input = POut.ret (Except.ok ⟨(rustLines input).map scalarNode⟩) ∧
      ((rustLines input).map scalarNode).length = (rustLines input).length := by
  intro input hall
  refine ⟨?_, by simp⟩
  have h := parse_documentF_scalar (rustLines input) (3 * (rustLines input).length + 1)
    0 [] hall (le_refl _)
  simpa using h

/-- Witness for C8 at the concrete two-line input. -/
theorem C8_witness :
    parse "a 1\nb 2" = POut.ret (Except.ok ⟨(rustLines "a 1\nb 2").map scalarNode⟩) ∧
    ((rustLines "a 1\nb 2").map scalarNode).length = (rustLines "a 1\nb 2").length :=
  C8_scalar_documents "a 1\nb 2" (by decide)

/-- C9: the inline-list parser strips exactly one leading `[` and one
trailing `]`, trims, gives the empty list when nothing remains, and
otherwise the comma-separated segments, trimmed and wrapped as strings; the
concrete `colors [red, green, blue]` line yields the three strings in
order. -/
theorem C9_inline_list :
    (∀ inner : String, rustTrim ("[" ++ inner ++ "]") = "[" ++ inner ++ "]" →
      parse_inline_list ("[" ++ inner ++ "]") =
        (if rustTrim inner = "" then Except.ok []
         else Except.ok ((splitChar ',' inner.toList).map
            (fun seg => Value.string (rustTrim ⟨seg⟩))))) ∧
    parse "colors [red, green, blue]" =
      POut.ret (Except.ok ⟨[⟨"colors", none,
        Value.list [Value.string "red", Value.string "green", Value.string "blue"]⟩]⟩) := by
  refine ⟨?_, rfl⟩
  intro inner htrim
  have hdata : ("[" ++ inner ++ "]").toList = '[' :: (inner.toList ++ [']']) := by
    show ("[" ++ inner ++ "]").data = '[' :: (inner.data ++ [']'])
    rw [String.data_append, String.data_append]
    simp
  have hL : stripBracketL ("[" ++ inner ++ "]") = ⟨inner.toList ++ [']']⟩ := by
    simp only [stripBracketL, hdata]
  have hR : stripBracketR (⟨inner.toList ++ [']']⟩ : String) = ⟨inner.toList⟩ := by
    simp only [stripBracketR, toList_mk, List.reverse_append]
    simp
  have hmk : (⟨inner.toList⟩ : String) = inner := rfl
  simp only [parse_inline_list, htrim, hL, hR, hmk, toList_mk]

/-- Witness for C9 at the concrete inner text. -/
theorem C9_witness :
    parse_inline_list ("[" ++ "red, green, blue" ++ "]") =
      (if rustTrim "red, green, blue" = "" then Except.ok []
       else Except.ok ((splitChar ',' "red, green, blue".toList).map
          (fun seg => Value.string (rustTrim ⟨seg⟩)))) :=
  C9_inline_list.1 "red, green, blue" (by decide)

/-- C10: an annotation is recorded verbatim (splitting `key!annot` at the
first `!` returns the annotation text unchanged), a scalar value part stays
a verbatim string whatever the annotation says, and the concrete line
`age!int 30` yields annotation `"int"` with the string value `"30"`. -/
theorem C10_verbatim :
    (∀ k t : String, ¬ ('!' ∈ k.toList) →
      parse_key_and_type (k ++ "!" ++ t) = (k, some t)) ∧
    (∀ (fuel : Nat) (lines : List String) (vp : String) (annot : Option String),
      isScalarValB vp = true →
      parse_valueF (fuel + 1) lines vp annot = POut.ret (Except.ok (Value.string vp), lines)) ∧
    parse "age!int 30" = POut.ret (Except.ok ⟨[⟨"age", some "int", Value.string "30"⟩]⟩) := by
  refine ⟨?_, ?_, rfl⟩
  · intro k t hk
    have hdata : (k ++ "!" ++ t).toList = k.toList ++ '!' :: t.toList := by
      show (k ++ "!" ++ t).data = k.data ++ '!' :: t.data
      rw [String.data_append, String.data_append]
      simp
    have hall : ∀ c ∈ k.toList, (!(c = '!' : Bool)) = true := by
      intro c hc
      simp only [Bool.not_eq_true', decide_eq_false_iff_not]
      exact fun h => hk (h ▸ hc)
    simp only [parse_key_and_type, hdata]
    rw [if_pos (show '!' ∈ k.toList ++ '!' :: t.toList by simp)]
    rw [takeWhile_all_append k.toList '!' t.toList hall (by simp),
      dropWhile_all_append k.toList '!' t.toList hall (by simp)]
    rfl
  · intro fuel lines vp annot hs
    exact parse_valueF_scalar fuel lines vp annot hs

/-- Witness for C10 at the concrete key, annotation and value part. -/
theorem C10_witness :
    parse_key_and_type ("age" ++ "!" ++ "int") = ("age", some "int") ∧
    parse_valueF 1 [] "30" (some "int") = POut.ret (Except.ok (Value.string "30"), []) :=
  ⟨C10_verbatim.1 "age" "int" (by decide),
   C10_verbatim.2.1 0 [] "30" (some "int") (by decide)⟩

end UP
